import Mathlib

/-!
# Verification of the conch audio capture / visualization core

Shallow embedding of the audio ring buffer, resampler, and visualization
routines of the repository (files `src/audio.rs` and `src/viz.rs`), together
with proofs of the behavioural claims about them.

Modelling conventions:
* `f32`/`f64` sample values are modelled as exact rationals (`ℚ`).  None of
  the verified claims depends on rounding of the mantissa; where a claim's
  truth would differ under IEEE semantics this is noted at the claim.
* Rust operations that can panic (slice indexing out of bounds, `%` by zero,
  `usize` subtraction underflow) are modelled by `Option`-returning
  functions: `none` is a panic, `some` is normal completion.  Each guard in
  the Lean code mirrors the corresponding panic condition of the Rust
  expression, in evaluation order.
* `usize` is modelled as `Nat`; the non-panicking, clamping operations
  (`min`, saturating contexts) translate to the same operations on `Nat`.
-/

/-- A circular ring buffer for audio samples (`RingBuffer` in `audio.rs`).
`data` is the backing store (`Vec<f32>`), `capacity`, `write_pos` and
`count` are the `usize` fields. -/
structure RingBuffer where
  data : List ℚ
  capacity : Nat
  write_pos : Nat
  count : Nat
deriving DecidableEq, Repr

namespace RingBuffer

/-- `RingBuffer::new(capacity)`: backing store `vec![0.0; capacity]`,
cursor and count zero. -/
def new (capacity : Nat) : RingBuffer :=
  ⟨List.replicate capacity 0, capacity, 0, 0⟩

/-- One iteration of the loop body of `RingBuffer::write`:
`self.data[self.write_pos] = sample` (panics when the index is out of
bounds), then `self.write_pos = (self.write_pos + 1) % self.capacity`
(panics when `capacity == 0`), then the saturating increment of `count`. -/
def writeOne (rb : RingBuffer) (sample : ℚ) : Option RingBuffer :=
  if rb.write_pos < rb.data.length then
    if 0 < rb.capacity then
      some ⟨rb.data.set rb.write_pos sample, rb.capacity,
            (rb.write_pos + 1) % rb.capacity,
            if rb.count < rb.capacity then rb.count + 1 else rb.count⟩
    else none
  else none

/-- `RingBuffer::write(samples)`: the `for &sample in samples` loop;
a panic anywhere aborts the whole call. -/
def write (rb : RingBuffer) (samples : List ℚ) : Option RingBuffer :=
  samples.foldl (fun acc s => acc.bind fun b => b.writeOne s) (some rb)

/-- `RingBuffer::read_all`.  The slice expressions `&self.data[..self.count]`
and `&self.data[self.write_pos..]` panic when the bound exceeds the vector
length; otherwise the function is a pure read. -/
def read_all (rb : RingBuffer) : Option (List ℚ) :=
  if rb.count = 0 then some []
  else if rb.count < rb.capacity then
    if rb.count ≤ rb.data.length then some (rb.data.take rb.count) else none
  else
    if rb.write_pos ≤ rb.data.length then
      some (rb.data.drop rb.write_pos ++ rb.data.take rb.write_pos)
    else none

/-- The two slice reads shared by both branches of `RingBuffer::read_last`,
reading `n` elements starting at `start` with wraparound at `capacity`.
Mirrors the `if start + n <= self.capacity` split and the panic conditions
of each slice expression and of the `usize` subtraction
`self.capacity - start` inside `remaining`. -/
def readSeg (rb : RingBuffer) (start n : Nat) : Option (List ℚ) :=
  if start + n ≤ rb.capacity then
    if start + n ≤ rb.data.length then
      some ((rb.data.drop start).take n)
    else none
  else
    if start ≤ rb.capacity ∧ start ≤ rb.data.length then
      if n - (rb.capacity - start) ≤ rb.data.length then
        some (rb.data.drop start ++ rb.data.take (n - (rb.capacity - start)))
      else none
    else none

/-- `RingBuffer::read_last(n)`: clamp `n` to `count`, compute the start
index (the `else` arm computes `self.capacity - (n - self.write_pos)`,
whose `usize` subtraction underflows — panics — when
`n - write_pos > capacity`), then copy one or two contiguous segments. -/
def read_last (rb : RingBuffer) (n : Nat) : Option (List ℚ) :=
  let n' := min n rb.count
  if n' = 0 then some []
  else if n' ≤ rb.write_pos then
    readSeg rb (rb.write_pos - n') n'
  else
    if n' - rb.write_pos ≤ rb.capacity then
      readSeg rb (rb.capacity - (n' - rb.write_pos)) n'
    else none

/-- `RingBuffer::clear`: reset cursor and count, keep the backing store. -/
def clear (rb : RingBuffer) : RingBuffer :=
  { rb with write_pos := 0, count := 0 }

/-- `RingBuffer::len`. -/
def len (rb : RingBuffer) : Nat := rb.count

/-- `RingBuffer::is_empty`. -/
def is_empty (rb : RingBuffer) : Bool := rb.count = 0

end RingBuffer

/-- A sequence of `write` calls (the reachable states of the claim
statements): each call appends its slice, a panic aborts the sequence. -/
def RingBuffer.writeSeq (rb : RingBuffer) (calls : List (List ℚ)) :
    Option RingBuffer :=
  calls.foldl (fun acc c => acc.bind fun b => b.write c) (some rb)

/-- The last `n` elements of a list (all of it when `n ≥ length`).
Specification-side description of ring-buffer contents. -/
def lastN (l : List ℚ) (n : Nat) : List ℚ :=
  l.drop (l.length - n)

/-- Structural well-formedness of a `RingBuffer`, maintained by every
operation of the Rust API. -/
def RingBuffer.WF (rb : RingBuffer) : Prop :=
  rb.data.length = rb.capacity ∧
  rb.count ≤ rb.capacity ∧
  (rb.capacity = 0 → rb.write_pos = 0 ∧ rb.count = 0) ∧
  (0 < rb.capacity → rb.write_pos < rb.capacity) ∧
  (rb.count < rb.capacity → rb.write_pos = rb.count)

/-- The value `read_all` returns when it does not panic. -/
def RingBuffer.readAllT (rb : RingBuffer) : List ℚ :=
  if rb.count = 0 then []
  else if rb.count < rb.capacity then rb.data.take rb.count
  else rb.data.drop rb.write_pos ++ rb.data.take rb.write_pos

/-- The abstraction invariant: after writing the sample history `hist`
into `RingBuffer.new C`, the concrete state is `rb`. -/
def RingBuffer.Abs (C : Nat) (hist : List ℚ) (rb : RingBuffer) : Prop :=
  rb.capacity = C ∧ rb.WF ∧
  rb.write_pos = hist.length % C ∧
  rb.count = min hist.length C ∧
  rb.readAllT = lastN hist C

/-- `SharedAudioState` from `audio.rs`: the mutex-guarded aggregate shared
between the audio callback and the main thread. -/
structure SharedAudioState where
  recording : Bool
  buffer : RingBuffer

/-- `AudioCapture::read_last_samples(n)` (`audio.rs`): under the lock, if
`recording` is set return `buffer.read_last(n)`, else return an empty
vector.  The function takes `&self` and performs no mutation, so it is
modelled as state-passing that returns the state unchanged (first
component: the returned vector, `none` = panic). -/
def AudioCapture.read_last_samples (st : SharedAudioState) (n : Nat) :
    Option (List ℚ) × SharedAudioState :=
  if st.recording then (st.buffer.read_last n, st) else (some [], st)

/-- `resample(samples, from_rate, to_rate)` from `audio.rs`, with the `f64`
arithmetic modelled exactly over `ℚ`.  `as usize` on the non-negative
`f64` quantities is truncation, i.e. `Nat.floor`. -/
def resample (samples : List ℚ) (from_rate to_rate : Nat) : List ℚ :=
  if from_rate = to_rate ∨ samples = [] then samples
  else
    let r : ℚ := (from_rate : ℚ) / (to_rate : ℚ)
    let output_len : Nat := Nat.floor ((samples.length : ℚ) / r)
    (List.range output_len).map fun (i : Nat) =>
      let src : ℚ := (i : ℚ) * r
      let idx : Nat := Nat.floor src
      let frac : ℚ := src - (idx : ℚ)
      let s1 := samples.getD (min idx (samples.length - 1)) 0
      let s2 := samples.getD (min (idx + 1) (samples.length - 1)) 0
      s1 + (s2 - s1) * frac

/-- `dots_to_braille` from `viz.rs`: pack a 4-row × 2-column dot grid into
the 8 braille bits (left column top-to-bottom → bits 0,1,2,6; right column
→ bits 3,4,5,7) and add the base codepoint 0x2800.  The result is the
codepoint of the returned `char`; `char::from_u32` always succeeds here
because `0x2800 + bits ≤ 0x28FF` is a valid scalar value, so the
`unwrap_or(' ')` fallback is dead code.  `dots r c` is `dots[r][c]`. -/
def dots_to_braille (dots : Fin 4 → Fin 2 → Bool) : Nat :=
  let bits : Nat :=
    (if dots 0 0 then 1 <<< 0 else 0) |||
    (if dots 1 0 then 1 <<< 1 else 0) |||
    (if dots 2 0 then 1 <<< 2 else 0) |||
    (if dots 3 0 then 1 <<< 6 else 0) |||
    (if dots 0 1 then 1 <<< 3 else 0) |||
    (if dots 1 1 then 1 <<< 4 else 0) |||
    (if dots 2 1 then 1 <<< 5 else 0) |||
    (if dots 3 1 then 1 <<< 7 else 0)
  0x2800 + bits

/-- `BrailleCanvas` from `viz.rs`: a flat row-major grid of dot pixels,
`dots.length = width * height` for every canvas built by `new`. -/
structure BrailleCanvas where
  width : Nat
  height : Nat
  dots : List Bool
deriving DecidableEq, Repr

/-- `BrailleCanvas::new(terminal_cols, terminal_rows)`. -/
def BrailleCanvas.new (terminal_cols terminal_rows : Nat) : BrailleCanvas :=
  ⟨terminal_cols * 2, terminal_rows * 4,
   List.replicate (terminal_cols * 2 * (terminal_rows * 4)) false⟩

/-- `BrailleCanvas::get_dot`: in-bounds read, `false` outside.  (On the
canvases reachable from `new` the index `y * width + x` is always within
`dots`, so `getD`'s default is never consulted in bounds.) -/
def BrailleCanvas.get_dot (c : BrailleCanvas) (x y : Nat) : Bool :=
  if x < c.width ∧ y < c.height then c.dots.getD (y * c.width + x) false
  else false

/-- `BrailleCanvas::set_dot`: in-bounds write, no-op outside. -/
def BrailleCanvas.set_dot (c : BrailleCanvas) (x y : Nat) : BrailleCanvas :=
  if x < c.width ∧ y < c.height then
    { c with dots := c.dots.set (y * c.width + x) true }
  else c

/-- The `for y in start..=end` loop of `fill_vertical_line`: set `rem`
dots in column `x` starting at row `y`. -/
def setColRange (w x : Nat) : List Bool → Nat → Nat → List Bool
  | dots, _, 0 => dots
  | dots, y, rem + 1 => setColRange w x (dots.set (y * w + x) true) (y + 1) rem

/-- `BrailleCanvas::fill_vertical_line` from `viz.rs`.  The Rust loop body
indexes `dots[y * width + x]` directly; for every call made by the
renderer the index is in bounds, and `List.set` out of bounds is a no-op,
matching the absence of a reachable panic.  (`self.height - 1` is `usize`
arithmetic; the renderer only calls this with `height ≥ 2`.) -/
def BrailleCanvas.fill_vertical_line (c : BrailleCanvas)
    (x y_start y_end : Nat) : BrailleCanvas :=
  if c.width ≤ x then c
  else
    let s := min y_start y_end
    let e := min (max y_start y_end) (c.height - 1)
    { c with dots := setColRange c.width x c.dots s (e + 1 - s) }

/-- The loop body of `render_waveform_to_canvas` for the bar with index
`i` and amplitude `amp`: clamp, compute the rounded extent, skip when it
is zero, otherwise fill both sub-pixel columns `2i` and `2i+1` from
`center - extent` (saturating) to `min (center + extent - 1) (height - 1)`.
`f32::round` rounds half away from zero, which on the non-negative value
`amp * center` coincides with `round` on `ℚ`. -/
def renderBar (canvas : BrailleCanvas) (i : Nat) (amp : ℚ) : BrailleCanvas :=
  let a := min (max amp 0) 1
  let center := canvas.height / 2
  let extent := (round (a * (center : ℚ))).toNat
  if extent = 0 then canvas
  else
    (canvas.fill_vertical_line (i * 2) (center - extent)
        (min (center + extent - 1) (canvas.height - 1))).fill_vertical_line
      (i * 2 + 1) (center - extent)
      (min (center + extent - 1) (canvas.height - 1))

/-- `render_waveform_to_canvas` from `viz.rs`: iterate `renderBar` over
the enumerated bars. -/
def render_waveform_to_canvas (bars : List ℚ) (canvas : BrailleCanvas) :
    BrailleCanvas :=
  bars.enum.foldl (fun c p => renderBar c p.1 p.2) canvas

/-- Specification-side predicate: whether rendering the bar with index
`i` and amplitude `amp` sets the dot `(x, y)` on a `w × h` dot canvas.
Used to characterize `render_waveform_to_canvas`. -/
def barHit (w h : Nat) (i : Nat) (amp : ℚ) (x y : Nat) : Bool :=
  let extent := (round (min (max amp 0) 1 * ((h / 2 : Nat) : ℚ))).toNat
  decide ((x = i * 2 ∨ x = i * 2 + 1) ∧ x < w ∧ extent ≠ 0 ∧
    h / 2 - extent ≤ y ∧ y ≤ min (h / 2 + extent - 1) (h - 1) ∧ y < h)

/-- `normalize_magnitudes` from `viz.rs`.  `fold(0.0, f32::max)` is
`foldl max 0`; `clamp(0.0, 1.0)` is `min (max · 0) 1`.  Division by zero
(possible only when the computed maximum and `min_ref` are both ≤ 0)
yields `0` on `ℚ` where `f32` would yield `±inf`/`NaN`; no verified claim
depends on that regime except as a counterexample, which holds under both
semantics. -/
def normalize_magnitudes (magnitudes : List ℚ) (noise_floor min_ref : ℚ) :
    List ℚ :=
  if magnitudes = [] then []
  else
    let mx := magnitudes.foldl max 0
    if mx ≤ noise_floor then List.replicate magnitudes.length 0
    else
      magnitudes.map fun m =>
        if m ≤ noise_floor then 0
        else min (max (m / max mx min_ref) 0) 1

/-- Average of the magnitudes of group `[lo, hi)`, counting entries past
the end of the spectrum as zero (the spec's "zero-padded, not
interpolated" rule for spectra shorter than the group range); an empty or
inverted range contributes 0. -/
def groupAvg (spectrum : List ℚ) (lo hi : Nat) : ℚ :=
  if hi ≤ lo then 0
  else ((spectrum.drop lo).take (hi - lo)).foldl (· + ·) 0 / ((hi - lo : Nat) : ℚ)

/-- `⌊N_half ^ ((i+1) / k)⌋` computed exactly over `Nat`: the greatest
`m ≤ N_half` with `m ^ k ≤ N_half ^ (i+1)`. -/
def rawBound (N_half k i : Nat) : Nat :=
  Nat.findGreatest (fun m => m ^ k ≤ N_half ^ (i + 1)) N_half

/-- The group loop of the spectrum binning: `prev` is the previous upper
boundary, `i` the group index, the last argument the number of groups
still to emit.  Each boundary is forced to exceed the previous one by at
least 1 (minimum group width), and the final boundary is clamped to
`N_half`. -/
def binGo (spectrum : List ℚ) (k : Nat) : Nat → Nat → Nat → List ℚ
  | _, _, 0 => []
  | prev, i, rem + 1 =>
    let N_half := spectrum.length
    let b0 := max (rawBound N_half k i) (prev + 1)
    let b := if rem = 0 then min b0 N_half else b0
    groupAvg spectrum prev b :: binGo spectrum k b (i + 1) rem

/-- Modelled from the spec: `bin_spectrum` belongs to the SpectrumEngine
(§4.4 step 5, §9 note 3), which is absent from the source tree — only
plan-level test stubs reference the FFT path.  Per the spec's words:
group `i`'s upper boundary is `⌊N_half ^ ((i+1)/num_bars)⌋`, boundaries
are made strictly increasing with minimum group width 1 and the final
boundary clamped to `N_half`; magnitudes are averaged within each group;
a spectrum shorter than a group's range is zero-padded; `num_bars = 0`
gives an empty result. -/
def bin_spectrum (spectrum : List ℚ) (num_bars : Nat) : List ℚ :=
  if num_bars = 0 then [] else binGo spectrum num_bars 0 0 num_bars

section AbsLemmas

theorem RingBuffer.read_all_eq_of_wf (rb : RingBuffer) (h : rb.WF) :
    rb.read_all = some rb.readAllT := by
  obtain ⟨hlen, hcnt, hz, hwp, hwc⟩ := h
  unfold RingBuffer.read_all RingBuffer.readAllT
  by_cases h0 : rb.count = 0
  · simp [h0]
  · by_cases h1 : rb.count < rb.capacity
    · have hle : rb.count ≤ rb.data.length := by omega
      simp [h0, h1, hle]
    · have hle : rb.write_pos ≤ rb.data.length := by
        rcases Nat.eq_zero_or_pos rb.capacity with hc | hc
        · have := hz hc; omega
        · have := hwp hc; omega
      simp [h0, h1, hle]


theorem lastN_of_le {l : List ℚ} {n : Nat} (h : l.length ≤ n) : lastN l n = l := by
  unfold lastN
  rw [Nat.sub_eq_zero_of_le h, List.drop_zero]

theorem lastN_length {l : List ℚ} {n : Nat} : (lastN l n).length = min n l.length := by
  unfold lastN
  rw [List.length_drop]
  omega

theorem RingBuffer.abs_new (C : Nat) : RingBuffer.Abs C [] (RingBuffer.new C) := by
  refine ⟨rfl, ⟨by simp [RingBuffer.new], by simp [RingBuffer.new], ?_, ?_, ?_⟩, ?_, ?_, ?_⟩
  · intro _; exact ⟨rfl, rfl⟩
  · intro h; simpa [RingBuffer.new] using h
  · intro _; rfl
  · simp [RingBuffer.new, Nat.zero_mod]
  · simp [RingBuffer.new]
  · simp [RingBuffer.new, RingBuffer.readAllT, lastN]

/-- `(l.set n a).take (n+1) = l.take n ++ [a]` for an in-bounds index. -/
theorem take_succ_set {l : List ℚ} {n : Nat} {a : ℚ} (h : n < l.length) :
    (l.set n a).take (n + 1) = l.take n ++ [a] := by
  rw [List.set_eq_take_append_cons_drop, if_pos h,
    List.take_append_eq_append_take]
  have h1 : (l.take n).length = n := List.length_take_of_le (Nat.le_of_lt h)
  rw [List.take_of_length_le (by omega), h1]
  have : n + 1 - n = 1 := by omega
  simp [this]

theorem lastN_append_of_ge {hist : List ℚ} {C : Nat} (hC : 0 < C)
    (hge : C ≤ hist.length) (s : ℚ) :
    lastN (hist ++ [s]) C = (lastN hist C).drop 1 ++ [s] := by
  unfold lastN
  rw [List.length_append, List.length_singleton]
  have h1 : hist.length + 1 - C = (hist.length - C) + 1 := by omega
  rw [h1, List.drop_append_eq_append_drop]
  have h2 : hist.length - C + 1 - hist.length = 0 := by omega
  rw [h2, List.drop_zero, List.drop_drop]

/-- Content preservation, pre-wrap case: the buffer holds exactly `hist`
contiguously at the front and the new sample lands at index `hist.length`. -/
theorem readAllT_write_nowrap (d : List ℚ) (C : Nat) (hist : List ℚ) (s : ℚ)
    (hlen : d.length = C) (hlt : hist.length < C)
    (htake : d.take hist.length = hist) :
    RingBuffer.readAllT ⟨d.set hist.length s, C,
      (hist.length + 1) % C, hist.length + 1⟩ = lastN (hist ++ [s]) C := by
  have hLd : hist.length < d.length := by omega
  rw [lastN_of_le (by simp; omega)]
  unfold RingBuffer.readAllT
  simp only
  rw [if_neg (by omega)]
  by_cases hfull : hist.length + 1 < C
  · rw [if_pos hfull, take_succ_set hLd, htake]
  · have hLC : hist.length + 1 = C := by omega
    rw [if_neg (by omega)]
    have hmod : (hist.length + 1) % C = 0 := by rw [hLC, Nat.mod_self]
    rw [hmod]
    simp only [List.drop_zero, List.take_zero, List.append_nil]
    rw [List.set_eq_take_append_cons_drop, if_pos hLd, htake,
      List.drop_eq_nil_of_le (by omega)]

/-- Content preservation, wrapped case: the buffer stays full, the oldest
sample (at the write cursor) is overwritten by the new one. -/
theorem readAllT_write_wrap (d : List ℚ) (C : Nat) (hist : List ℚ) (s : ℚ)
    (w : Nat) (hC : 0 < C) (hlen : d.length = C) (hge : C ≤ hist.length)
    (hwC : w < C) (hold : d.drop w ++ d.take w = lastN hist C) :
    RingBuffer.readAllT ⟨d.set w s, C, (w + 1) % C, C⟩
      = lastN (hist ++ [s]) C := by
  have hwd : w < d.length := by omega
  rw [lastN_append_of_ge hC hge, ← hold]
  have hdrop1 : (d.drop w ++ d.take w).drop 1 = d.drop (w + 1) ++ d.take w := by
    rw [List.drop_append_eq_append_drop]
    have hdl : (d.drop w).length = C - w := by rw [List.length_drop, hlen]
    rw [hdl]
    have h2 : 1 - (C - w) = 0 := by omega
    rw [h2, List.drop_zero, List.drop_drop]
  rw [hdrop1]
  unfold RingBuffer.readAllT
  simp only
  rw [if_neg (by omega), if_neg (by omega)]
  by_cases hw1 : w + 1 < C
  · have hmod : (w + 1) % C = w + 1 := Nat.mod_eq_of_lt hw1
    rw [hmod, List.drop_set_of_lt _ _ (by omega), take_succ_set hwd,
      List.append_assoc]
  · have hweq : w + 1 = C := by omega
    have hmod : (w + 1) % C = 0 := by rw [hweq, Nat.mod_self]
    rw [hmod]
    simp only [List.drop_zero, List.take_zero, List.append_nil]
    rw [List.set_eq_take_append_cons_drop, if_pos hwd,
      List.drop_eq_nil_of_le (by omega)]
    simp

/-- Preservation of the abstraction invariant under one sample write. -/
theorem RingBuffer.abs_writeOne {C : Nat} (hC : 0 < C) {hist : List ℚ}
    {rb : RingBuffer} (h : RingBuffer.Abs C hist rb) (s : ℚ) :
    ∃ rb', rb.writeOne s = some rb' ∧ RingBuffer.Abs C (hist ++ [s]) rb' := by
  obtain ⟨d, cap, w, cnt⟩ := rb
  obtain ⟨hcap, ⟨hlen, hcnt, hz, hwp, hwc⟩, hw, hc, hra⟩ := h
  simp only at hcap hlen hcnt hz hwp hwc hw hc hra
  subst cap
  have hwC : w < C := hwp hC
  have hwlt : w < d.length := by omega
  have hstep : RingBuffer.writeOne ⟨d, C, w, cnt⟩ s
      = some ⟨d.set w s, C, (w + 1) % C,
        if cnt < C then cnt + 1 else cnt⟩ := by
    simp [RingBuffer.writeOne, hwlt, hC]
  refine ⟨_, hstep, ?_⟩
  have hcnt' : (if cnt < C then cnt + 1 else cnt) = min (hist.length + 1) C := by
    split <;> omega
  refine ⟨rfl, ⟨by simpa using hlen, ?_, ?_, ?_, ?_⟩, ?_, ?_, ?_⟩
  · simp only
    split <;> omega
  · simp only
    intro h0; omega
  · simp only
    intro _
    exact Nat.mod_lt _ hC
  · -- count < capacity after the write → the cursor equals the count
    simp only
    rw [hcnt']
    intro hlt
    have hLC : hist.length + 1 < C := by omega
    have hcl : cnt = hist.length := by omega
    have hwl : w = cnt := hwc (by omega)
    have hmod : hist.length % C = hist.length := Nat.mod_eq_of_lt (by omega)
    rw [hw, hmod, Nat.mod_eq_of_lt hLC]
    omega
  · -- new write position
    simp only [List.length_append, List.length_singleton, hw]
    exact Nat.mod_add_mod hist.length C 1
  · -- new count
    simp only [List.length_append, List.length_singleton]
    exact hcnt'
  · -- contents
    rcases Nat.lt_or_ge hist.length C with hlt | hge
    · -- not yet wrapped
      have hcl : cnt = hist.length := by omega
      have hwl : w = hist.length := by rw [hw, Nat.mod_eq_of_lt hlt]
      have htake : d.take hist.length = hist := by
        unfold RingBuffer.readAllT at hra
        simp only at hra
        by_cases h0 : cnt = 0
        · have hh : hist = [] := by
            have : hist.length = 0 := by omega
            exact List.eq_nil_of_length_eq_zero this
          simp [hh]
        · rw [if_neg h0, if_pos (by omega)] at hra
          rw [hcl] at hra
          rw [hra, lastN_of_le (by omega)]
      have hwr : (if cnt < C then cnt + 1 else cnt) = hist.length + 1 := by omega
      rw [hwl, hwr]
      exact readAllT_write_nowrap d C hist s hlen hlt htake
    · -- wrapped
      have hcl : cnt = C := by omega
      have hold : d.drop w ++ d.take w = lastN hist C := by
        unfold RingBuffer.readAllT at hra
        simp only at hra
        rw [if_neg (by omega), if_neg (by omega)] at hra
        exact hra
      have hwr : (if cnt < C then cnt + 1 else cnt) = C := by omega
      rw [hwr]
      exact readAllT_write_wrap d C hist s w hC hlen hge hwC hold

theorem lastN_zero {l : List ℚ} : lastN l 0 = [] := by
  unfold lastN
  rw [Nat.sub_zero, List.drop_length]

/-- The fold underlying `write`/`writeSeq` is absorbed by `none` (a panic
earlier in the loop aborts the rest). -/
theorem foldl_bind_none {α : Type} (g : RingBuffer → α → Option RingBuffer)
    (l : List α) :
    l.foldl (fun acc x => acc.bind fun b => g b x) (none : Option RingBuffer)
      = none := by
  induction l with
  | nil => rfl
  | cons x xs ih => exact ih

theorem RingBuffer.write_append (rb : RingBuffer) (xs ys : List ℚ) :
    rb.write (xs ++ ys) = (rb.write xs).bind fun b => b.write ys := by
  unfold RingBuffer.write
  rw [List.foldl_append]
  cases hxs : xs.foldl (fun acc s => acc.bind fun b => b.writeOne s) (some rb) with
  | none => exact foldl_bind_none _ ys
  | some b => rfl

/-- Writing a history `hist` into a fresh buffer of positive capacity never
panics and establishes the abstraction invariant. -/
theorem RingBuffer.abs_of_write {C : Nat} (hC : 0 < C) (hist : List ℚ) :
    ∃ rb, (RingBuffer.new C).write hist = some rb ∧ RingBuffer.Abs C hist rb := by
  induction hist using List.reverseRecOn with
  | nil => exact ⟨_, rfl, RingBuffer.abs_new C⟩
  | append_singleton xs s ih =>
      obtain ⟨rb, hw, habs⟩ := ih
      obtain ⟨rb', hw', habs'⟩ := RingBuffer.abs_writeOne hC habs s
      refine ⟨rb', ?_, habs'⟩
      rw [RingBuffer.write_append, hw]
      exact hw'

theorem RingBuffer.abs_of_write_eq {C : Nat} (hC : 0 < C) {hist : List ℚ}
    {rb : RingBuffer} (h : (RingBuffer.new C).write hist = some rb) :
    RingBuffer.Abs C hist rb := by
  obtain ⟨rb', hw, habs⟩ := RingBuffer.abs_of_write hC hist
  rw [hw] at h
  injection h with h2
  exact h2 ▸ habs

section ReadLastLemmas

theorem RingBuffer.readSeg_eq_nowrap {rb : RingBuffer} {start n : Nat}
    (h1 : start + n ≤ rb.capacity) (h2 : rb.capacity = rb.data.length) :
    rb.readSeg start n = some ((rb.data.drop start).take n) := by
  unfold RingBuffer.readSeg
  rw [if_pos h1, if_pos (by omega)]

theorem RingBuffer.readSeg_eq_wrap {rb : RingBuffer} {start n : Nat}
    (h1 : rb.capacity < start + n) (h2 : start ≤ rb.capacity)
    (h3 : rb.capacity = rb.data.length)
    (h4 : n - (rb.capacity - start) ≤ rb.data.length) :
    rb.readSeg start n
      = some (rb.data.drop start ++ rb.data.take (n - (rb.capacity - start))) := by
  unfold RingBuffer.readSeg
  rw [if_neg (by omega), if_pos ⟨h2, by omega⟩, if_pos h4]

theorem lastN_wrap_small (d : List ℚ) (C w n' : Nat) (hlen : d.length = C)
    (hwC : w ≤ C) (hn : n' ≤ w) :
    lastN (d.drop w ++ d.take w) n' = (d.drop (w - n')).take n' := by
  unfold lastN
  have hk : (d.drop w ++ d.take w).length - n' = C - n' := by
    rw [List.length_append, List.length_drop,
      List.length_take_of_le (by omega), hlen]
    omega
  rw [hk]
  have hA : (d.drop w).length = C - w := by rw [List.length_drop, hlen]
  rw [List.drop_append_eq_append_drop, hA]
  rw [List.drop_eq_nil_of_le (by rw [List.length_drop, hlen]; omega),
    List.nil_append]
  rw [show C - n' - (C - w) = w - n' from by omega, List.drop_take,
    show w - (w - n') = n' from by omega]

theorem lastN_wrap_big (d : List ℚ) (C w n' : Nat) (hlen : d.length = C)
    (hwC : w ≤ C) (hn1 : w < n') (hn2 : n' ≤ C) :
    lastN (d.drop w ++ d.take w) n' = d.drop (C - (n' - w)) ++ d.take w := by
  unfold lastN
  have hk : (d.drop w ++ d.take w).length - n' = C - n' := by
    rw [List.length_append, List.length_drop,
      List.length_take_of_le (by omega), hlen]
    omega
  rw [hk]
  have hA : (d.drop w).length = C - w := by rw [List.length_drop, hlen]
  rw [List.drop_append_eq_append_drop, hA]
  rw [show C - n' - (C - w) = 0 from by omega, List.drop_zero,
    List.drop_drop, show w + (C - n') = C - (n' - w) from by omega]

/-- `read_last n` never panics on a well-formed buffer and returns the last
`min n count` elements of what `read_all` would return. -/
theorem RingBuffer.read_last_eq_of_wf (rb : RingBuffer) (h : rb.WF) (n : Nat) :
    rb.read_last n = some (lastN rb.readAllT (min n rb.count)) := by
  obtain ⟨hlen, hcnt, hz, hwp, hwc⟩ := h
  by_cases h0 : min n rb.count = 0
  · unfold RingBuffer.read_last
    rw [if_pos h0, h0, lastN_zero]
  · have hcpos : 0 < rb.count := by omega
    have hCpos : 0 < rb.capacity := by omega
    have hwC : rb.write_pos < rb.capacity := hwp hCpos
    have hn'le : min n rb.count ≤ rb.count := Nat.min_le_right _ _
    unfold RingBuffer.read_last
    rw [if_neg h0]
    by_cases hlt : rb.count < rb.capacity
    · -- not wrapped yet: the cursor sits at `count`
      have hweq : rb.write_pos = rb.count := hwc hlt
      rw [if_pos (by omega)]
      rw [RingBuffer.readSeg_eq_nowrap (by omega) hlen.symm]
      unfold RingBuffer.readAllT
      rw [if_neg (show ¬ rb.count = 0 from by omega), if_pos hlt]
      unfold lastN
      rw [List.length_take_of_le (by omega), List.drop_take]
      rw [show rb.write_pos - min n rb.count
          = rb.count - min n rb.count from by omega,
        show rb.count - (rb.count - min n rb.count)
          = min n rb.count from by omega]
    · -- wrapped: the buffer is full
      unfold RingBuffer.readAllT
      rw [if_neg (show ¬ rb.count = 0 from by omega), if_neg hlt]
      by_cases hge : min n rb.count ≤ rb.write_pos
      · rw [if_pos hge]
        rw [RingBuffer.readSeg_eq_nowrap (by omega) hlen.symm]
        rw [lastN_wrap_small rb.data rb.capacity rb.write_pos
          (min n rb.count) hlen (by omega) hge]
      · rw [if_neg hge, if_pos (by omega)]
        by_cases hw0 : rb.write_pos = 0
        · rw [hw0]
          rw [RingBuffer.readSeg_eq_nowrap (by omega) hlen.symm]
          rw [lastN_wrap_big rb.data rb.capacity 0
            (min n rb.count) hlen (by omega) (by omega) (by omega)]
          simp only [Nat.sub_zero, List.take_zero, List.append_nil]
          rw [List.take_of_length_le (by rw [List.length_drop, hlen]; omega)]
        · rw [RingBuffer.readSeg_eq_wrap (by omega) (by omega) hlen.symm
            (by omega)]
          rw [lastN_wrap_big rb.data rb.capacity rb.write_pos
            (min n rb.count) hlen (by omega) (by omega) (by omega)]
          rw [show min n rb.count - (rb.capacity
            - (rb.capacity - (min n rb.count - rb.write_pos)))
            = rb.write_pos from by omega]

end ReadLastLemmas

theorem RingBuffer.writeSeq_eq_write_flatten (rb : RingBuffer)
    (calls : List (List ℚ)) : rb.writeSeq calls = rb.write calls.flatten := by
  induction calls generalizing rb with
  | nil => rfl
  | cons c cs ih =>
      show cs.foldl _ (rb.write c) = rb.write (c ++ cs.flatten)
      rw [RingBuffer.write_append]
      cases hc : rb.write c with
      | none => exact foldl_bind_none _ cs
      | some b => exact ih b

end AbsLemmas

theorem lastN_lastN (l : List ℚ) (C k : Nat) (hk : k ≤ C) :
    lastN (lastN l C) k = lastN l k := by
  unfold lastN
  rw [List.length_drop, List.drop_drop]
  congr 1
  omega

/-- With capacity 0 the backing store is empty, so the first loop
iteration of `write` indexes out of bounds and panics. -/
theorem write_new_zero_none (samples : List ℚ) (hs : samples ≠ []) :
    (RingBuffer.new 0).write samples = none := by
  cases samples with
  | nil => cases hs rfl
  | cons s rest =>
      unfold RingBuffer.write
      rw [List.foldl_cons]
      have h1 : ((some (RingBuffer.new 0)).bind fun b => b.writeOne s)
          = none := rfl
      rw [h1]
      exact foldl_bind_none _ rest

/-- **C1**: for a `RingBuffer` of capacity `C ≥ 1`, writing any sample
history never panics the reads, and once `count = C` each further write
overwrites the oldest stored sample: `read_all` returns exactly the most
recent `min (|hist|, C)` samples in arrival order (`lastN hist C`).  In
particular, capacity 4 with writes `[1,2,3,4,5,6]` yields `[3,4,5,6]`
(see the witness). -/
theorem ringBuffer_overwrite_oldest_C1 (C : Nat) (hC : 0 < C)
    (hist : List ℚ) (rb : RingBuffer)
    (h : (RingBuffer.new C).write hist = some rb) :
    rb.read_all = some (lastN hist C) := by
  obtain ⟨hcap, hwf, hw, hc, hra⟩ := RingBuffer.abs_of_write_eq hC h
  rw [RingBuffer.read_all_eq_of_wf rb hwf, hra]

theorem ringBuffer_overwrite_oldest_C1_witness :
    (RingBuffer.new 4).write [1, 2, 3, 4, 5, 6]
        = some (RingBuffer.mk [5, 6, 3, 4] 4 2 4) ∧
    (RingBuffer.mk [5, 6, 3, 4] 4 2 4).read_all = some [3, 4, 5, 6] :=
  ⟨by decide,
   ringBuffer_overwrite_oldest_C1 4 (by decide) [1, 2, 3, 4, 5, 6]
     (RingBuffer.mk [5, 6, 3, 4] 4 2 4) (by decide)⟩

/-- **C2**: for every state reachable from `new C` (`C ≥ 1`) by a sequence
of `write` calls, and every `n`, `read_last n` does not panic and returns
exactly `min n count` samples — the most recently written ones in arrival
order (the suffix of the flattened write history), with no padding. -/
theorem ringBuffer_read_last_clamped_C2 (C : Nat) (hC : 0 < C)
    (calls : List (List ℚ)) (rb : RingBuffer) (n : Nat)
    (h : (RingBuffer.new C).writeSeq calls = some rb) :
    rb.read_last n = some (lastN calls.flatten (min n rb.count)) ∧
    (lastN calls.flatten (min n rb.count)).length = min n rb.count := by
  rw [RingBuffer.writeSeq_eq_write_flatten] at h
  obtain ⟨hcap, hwf, hw, hc, hra⟩ := RingBuffer.abs_of_write_eq hC h
  constructor
  · rw [RingBuffer.read_last_eq_of_wf rb hwf n, hra,
      lastN_lastN _ _ _ (by omega)]
  · rw [lastN_length]
    omega

theorem ringBuffer_read_last_clamped_C2_witness :
    (RingBuffer.new 2).writeSeq [[1, 2, 3]] = some (RingBuffer.mk [3, 2] 2 1 2) ∧
    (RingBuffer.mk [3, 2] 2 1 2).read_last 5 = some [2, 3] :=
  ⟨by decide,
   (ringBuffer_read_last_clamped_C2 2 (by decide) [[1, 2, 3]]
      (RingBuffer.mk [3, 2] 2 1 2) 5 (by decide)).1⟩

/-- **C3**: for every capacity `C` and every sequence of `write` calls,
`len() ≤ C` holds after each call, and once at least `C` samples in total
have been written, `read_all` returns a sequence of length exactly `C`. -/
theorem ringBuffer_len_le_capacity_C3 (C : Nat) (calls : List (List ℚ))
    (rb : RingBuffer) (h : (RingBuffer.new C).writeSeq calls = some rb) :
    rb.len ≤ C ∧ (C ≤ calls.flatten.length →
      ∃ l, rb.read_all = some l ∧ l.length = C) := by
  rw [RingBuffer.writeSeq_eq_write_flatten] at h
  rcases Nat.eq_zero_or_pos C with hC0 | hC
  · subst hC0
    cases hfl : calls.flatten with
    | nil =>
        rw [hfl] at h
        have hrb : rb = RingBuffer.new 0 := by
          have h' : some (RingBuffer.new 0) = some rb := h
          injection h' with h2
          exact h2.symm
        subst hrb
        exact ⟨Nat.le_refl 0, fun _ => ⟨[], rfl, rfl⟩⟩
    | cons a t =>
        rw [hfl, write_new_zero_none _ (by simp)] at h
        cases h
  · obtain ⟨hcap, hwf, hw, hc, hra⟩ := RingBuffer.abs_of_write_eq hC h
    refine ⟨?_, fun hge => ?_⟩
    · unfold RingBuffer.len
      omega
    · exact ⟨lastN calls.flatten C,
        by rw [RingBuffer.read_all_eq_of_wf rb hwf, hra],
        by rw [lastN_length]; omega⟩

theorem ringBuffer_len_le_capacity_C3_witness :
    (RingBuffer.new 2).writeSeq [[1], [2, 3]] = some (RingBuffer.mk [3, 2] 2 1 2) ∧
    (RingBuffer.mk [3, 2] 2 1 2).len ≤ 2 ∧
    (2 ≤ ([[1], [2, 3]] : List (List ℚ)).flatten.length) ∧
    (∃ l, (RingBuffer.mk [3, 2] 2 1 2).read_all = some l ∧ l.length = 2) :=
  ⟨by decide,
   (ringBuffer_len_le_capacity_C3 2 [[1], [2, 3]]
      (RingBuffer.mk [3, 2] 2 1 2) (by decide)).1,
   by decide,
   (ringBuffer_len_le_capacity_C3 2 [[1], [2, 3]]
      (RingBuffer.mk [3, 2] 2 1 2) (by decide)).2 (by decide)⟩

/-- **C9**: `AudioCapture::read_last_samples(n)` returns the empty
sequence for every `n` whenever the recording flag is clear, leaving the
state (hence the buffer) untouched; while recording it returns the
buffer's `read_last n`. -/
theorem read_last_samples_idle_C9 (st : SharedAudioState) (n : Nat) :
    (st.recording = false →
      AudioCapture.read_last_samples st n = (some [], st)) ∧
    (st.recording = true →
      AudioCapture.read_last_samples st n = (st.buffer.read_last n, st)) := by
  constructor <;> intro h <;>
    simp [AudioCapture.read_last_samples, h]

theorem read_last_samples_idle_C9_witness :
    AudioCapture.read_last_samples ⟨false, RingBuffer.new 4⟩ 7
        = (some [], ⟨false, RingBuffer.new 4⟩) ∧
    AudioCapture.read_last_samples ⟨true, RingBuffer.new 4⟩ 7
        = ((RingBuffer.new 4).read_last 7, ⟨true, RingBuffer.new 4⟩) :=
  ⟨(read_last_samples_idle_C9 ⟨false, RingBuffer.new 4⟩ 7).1 rfl,
   (read_last_samples_idle_C9 ⟨true, RingBuffer.new 4⟩ 7).2 rfl⟩

/-- **C10**: with capacity 0, `write` panics on every non-empty slice
(out-of-bounds index, then `% 0`); `read_all` and `read_last` never panic
on any well-formed buffer of any capacity (and `clear`, `len`, `is_empty`
and the capacity accessor are total functions with no panicking
operation); for every capacity `C ≥ 1` and every reachable state, `write`
never panics. -/
theorem ringBuffer_panic_conditions_C10 :
    (∀ samples : List ℚ, samples ≠ [] →
      (RingBuffer.new 0).write samples = none) ∧
    (∀ rb : RingBuffer, rb.WF →
      (∃ l, rb.read_all = some l) ∧ ∀ n : Nat, ∃ l, rb.read_last n = some l) ∧
    (∀ (C : Nat) (calls : List (List ℚ)) (rb : RingBuffer), 0 < C →
      (RingBuffer.new C).writeSeq calls = some rb →
      ∀ samples : List ℚ, ∃ rb', rb.write samples = some rb') := by
  refine ⟨write_new_zero_none, fun rb hwf =>
    ⟨⟨_, RingBuffer.read_all_eq_of_wf rb hwf⟩,
     fun n => ⟨_, RingBuffer.read_last_eq_of_wf rb hwf n⟩⟩, ?_⟩
  intro C calls rb hC h samples
  rw [RingBuffer.writeSeq_eq_write_flatten] at h
  obtain ⟨rb2, hw2, _⟩ := RingBuffer.abs_of_write hC (calls.flatten ++ samples)
  rw [RingBuffer.write_append, h] at hw2
  exact ⟨rb2, hw2⟩

theorem ringBuffer_panic_conditions_C10_witness :
    (RingBuffer.new 0).write [1] = none ∧
    (∃ l, (RingBuffer.new 3).read_all = some l) ∧
    (∃ l, (RingBuffer.new 3).read_last 2 = some l) ∧
    (∃ rb', (RingBuffer.new 3).write [5, 6] = some rb') := by
  have h := ringBuffer_panic_conditions_C10
  have hwf : (RingBuffer.new 3).WF := by unfold RingBuffer.WF; decide
  exact ⟨h.1 [1] (by decide),
    (h.2.1 (RingBuffer.new 3) hwf).1,
    (h.2.1 (RingBuffer.new 3) hwf).2 2,
    h.2.2 3 [] (RingBuffer.new 3) (by decide) rfl [5, 6]⟩

/-- Output length of `resample` for unequal, positive rates: the `f64`
computation `(len as f64 / (from as f64 / to as f64)) as usize`, carried
out exactly, is the natural-number quotient `len * to / from`. -/
theorem resample_length (samples : List ℚ) (fr tr : Nat)
    (hne : fr ≠ tr) (hfr : 0 < fr) (htr : 0 < tr) :
    (resample samples fr tr).length = samples.length * tr / fr := by
  by_cases hs : samples = []
  · subst hs
    simp [resample]
  · have h1 : (resample samples fr tr).length
        = Nat.floor ((samples.length : ℚ) / ((fr : ℚ) / (tr : ℚ))) := by
      unfold resample
      rw [if_neg (by simp [hne, hs])]
      simp only [List.length_map, List.length_range]
    rw [h1, div_div_eq_mul_div]
    rw [show ((samples.length : ℚ) * (tr : ℚ))
        = ((samples.length * tr : ℕ) : ℚ) from by push_cast; ring]
    rw [Nat.floor_div_nat, Nat.floor_natCast]

/-- **C8**: for unequal positive rates, `resample` produces output of
length `⌊input_len / (from_rate / to_rate)⌋ = input_len * to_rate /
from_rate`; in particular 48000 → 16000 on length `L` yields `⌊L/3⌋`. -/
theorem resample_output_length_C8 (samples : List ℚ) (fr tr : Nat)
    (hne : fr ≠ tr) (hfr : 0 < fr) (htr : 0 < tr) :
    (resample samples fr tr).length = samples.length * tr / fr ∧
    (resample samples 48000 16000).length = samples.length / 3 := by
  refine ⟨resample_length samples fr tr hne hfr htr, ?_⟩
  rw [resample_length samples 48000 16000 (by decide) (by decide) (by decide)]
  omega

theorem resample_output_length_C8_witness :
    (resample [1, 2, 3, 4, 5, 6, 7] 48000 16000).length = 7 * 16000 / 48000 ∧
    (resample [1, 2, 3, 4, 5, 6, 7] 48000 16000).length = 7 / 3 :=
  resample_output_length_C8 [1, 2, 3, 4, 5, 6, 7] 48000 16000
    (by decide) (by decide) (by decide)

section FoldMax

theorem le_foldl_max_init (l : List ℚ) (a : ℚ) : a ≤ l.foldl max a := by
  induction l generalizing a with
  | nil => exact le_refl a
  | cons b t ih => exact le_trans (le_max_left a b) (ih (max a b))

theorem mem_le_foldl_max (l : List ℚ) (a : ℚ) :
    ∀ x ∈ l, x ≤ l.foldl max a := by
  induction l generalizing a with
  | nil => intro x hx; cases hx
  | cons b t ih =>
      intro x hx
      rcases List.mem_cons.mp hx with rfl | hx'
      · exact le_trans (le_max_right a x) (le_foldl_max_init t (max a x))
      · exact ih (max a b) x hx'

theorem foldl_max_le (l : List ℚ) (a b : ℚ) (ha : a ≤ b)
    (h : ∀ x ∈ l, x ≤ b) : l.foldl max a ≤ b := by
  induction l generalizing a with
  | nil => exact ha
  | cons c t ih =>
      exact ih (max a c) (max_le ha (h c (List.mem_cons_self c t)))
        fun x hx => h x (List.mem_cons_of_mem c hx)

end FoldMax

/-- **C5** (amended): whenever the maximum input value `M` is positive
and exceeds both `noise_floor` and `min_ref`, `normalize_magnitudes` maps
every occurrence of `M` to exactly 1, maps every input ≤ `noise_floor` to
exactly 0, every output lies in `[0, 1]`, and the output length equals
the input length. -/
theorem normalize_magnitudes_max_C5 (mags : List ℚ) (nf mr M : ℚ)
    (hmem : M ∈ mags) (hub : ∀ x ∈ mags, x ≤ M) (hpos : 0 < M)
    (hnf : nf < M) (hmr : mr < M) :
    (normalize_magnitudes mags nf mr).length = mags.length ∧
    (∀ i : Nat, mags[i]? = some M →
      (normalize_magnitudes mags nf mr)[i]? = some 1) ∧
    (∀ (i : Nat) (x : ℚ), mags[i]? = some x → x ≤ nf →
      (normalize_magnitudes mags nf mr)[i]? = some 0) ∧
    (∀ (i : Nat) (x : ℚ), (normalize_magnitudes mags nf mr)[i]? = some x →
      0 ≤ x ∧ x ≤ 1) := by
  have hne : mags ≠ [] := by
    intro h
    rw [h] at hmem
    cases hmem
  have hmx : mags.foldl max 0 = M :=
    le_antisymm (foldl_max_le mags 0 M (le_of_lt hpos) hub)
      (mem_le_foldl_max mags 0 M hmem)
  have hkey : normalize_magnitudes mags nf mr
      = mags.map fun m => if m ≤ nf then 0 else min (max (m / M) 0) 1 := by
    simp only [normalize_magnitudes]
    rw [if_neg hne, hmx, if_neg (not_le.mpr hnf),
      max_eq_left (le_of_lt hmr)]
  rw [hkey]
  refine ⟨List.length_map _ _, fun i hi => ?_, fun i x hi hx => ?_, fun i x hi => ?_⟩
  · rw [List.getElem?_map, hi]
    simp only [Option.map_some']
    congr 1
    rw [if_neg (not_le.mpr hnf), div_self (ne_of_gt hpos)]
    simp
  · rw [List.getElem?_map, hi]
    simp only [Option.map_some']
    congr 1
    rw [if_pos hx]
  · rw [List.getElem?_map] at hi
    cases hm : mags[i]? with
    | none => rw [hm] at hi; cases hi
    | some m =>
        rw [hm] at hi
        simp only [Option.map_some'] at hi
        injection hi with hi'
        subst hi'
        by_cases hmn : m ≤ nf
        · rw [if_pos hmn]
          exact ⟨le_refl 0, zero_le_one⟩
        · rw [if_neg hmn]
          exact ⟨le_min (le_max_right _ _) zero_le_one, min_le_right _ _⟩

theorem normalize_magnitudes_max_C5_witness :
    (normalize_magnitudes [2, 1] 1 1).length = 2 ∧
    (normalize_magnitudes [2, 1] 1 1)[0]? = some 1 ∧
    (normalize_magnitudes [2, 1] 1 1)[1]? = some 0 :=
  have h := normalize_magnitudes_max_C5 [2, 1] 1 1 2 (by decide)
    (by decide) (by decide) (by decide) (by decide)
  ⟨h.1, h.2.1 0 (by decide), h.2.2.1 1 1 (by decide) (by decide)⟩

/-- **C5** counterexample to the claim as stated: for `magnitudes = [0]`,
`noise_floor = min_ref = -1`, the maximum input value 0 exceeds both
floors, yet it is not mapped to 1: the reference level is `max (max 0 0)
(-1) = 0` and `0 / 0 = 0` over `ℚ` (in `f32` the same input produces
`0.0/0.0 = NaN ≠ 1.0`, so the claim fails under either semantics). -/
theorem normalize_magnitudes_C5_counterexample :
    ((-1 : ℚ) < 0) ∧
    normalize_magnitudes [0] (-1) (-1) = [0] ∧
    normalize_magnitudes [0] (-1) (-1) ≠ [1] := by
  refine ⟨by norm_num, ?_, ?_⟩
  · simp [normalize_magnitudes]
  · simp [normalize_magnitudes]

/-- **C7**: `dots_to_braille` packs the 2×4 dot cell with the left column
top-to-bottom on bits 0,1,2,6 and the right column top-to-bottom on bits
3,4,5,7, returning the base codepoint 0x2800 plus that code; the empty
cell gives base+0, the full cell base+255, the left-column-only cell
base+71 and the right-column-only cell base+184. -/
theorem dots_to_braille_layout_C7 (dots : Fin 4 → Fin 2 → Bool) :
    (dots_to_braille dots = 0x2800 +
      ((if dots 0 0 then 1 else 0) + (if dots 1 0 then 2 else 0) +
       (if dots 2 0 then 4 else 0) + (if dots 3 0 then 64 else 0) +
       (if dots 0 1 then 8 else 0) + (if dots 1 1 then 16 else 0) +
       (if dots 2 1 then 32 else 0) + (if dots 3 1 then 128 else 0))) ∧
    dots_to_braille (fun _ _ => false) = 0x2800 + 0 ∧
    dots_to_braille (fun _ _ => true) = 0x2800 + 255 ∧
    dots_to_braille (fun _ c => c = 0) = 0x2800 + 71 ∧
    dots_to_braille (fun _ c => c = 1) = 0x2800 + 184 := by
  refine ⟨?_, by decide, by decide, by decide, by decide⟩
  have key : ∀ b0 b1 b2 b3 b4 b5 b6 b7 : Bool,
      ((if b0 then 1 <<< 0 else 0) ||| (if b1 then 1 <<< 1 else 0) |||
       (if b2 then 1 <<< 2 else 0) ||| (if b3 then 1 <<< 6 else 0) |||
       (if b4 then 1 <<< 3 else 0) ||| (if b5 then 1 <<< 4 else 0) |||
       (if b6 then 1 <<< 5 else 0) ||| (if b7 then 1 <<< 7 else 0) : Nat)
      = ((if b0 then 1 else 0) + (if b1 then 2 else 0) +
         (if b2 then 4 else 0) + (if b3 then 64 else 0) +
         (if b4 then 8 else 0) + (if b5 then 16 else 0) +
         (if b6 then 32 else 0) + (if b7 then 128 else 0)) := by decide
  unfold dots_to_braille
  rw [key]

/-- The binning loop emits exactly one value per remaining group. -/
theorem binGo_length (spectrum : List ℚ) (k : Nat) :
    ∀ (rem prev i : Nat), (binGo spectrum k prev i rem).length = rem := by
  intro rem
  induction rem with
  | zero => intro prev i; rfl
  | succ r ih =>
      intro prev i
      show (_ :: binGo spectrum k _ (i + 1) r).length = r + 1
      rw [List.length_cons, ih]

theorem foldl_add_nonneg (l : List ℚ) (a : ℚ) (ha : 0 ≤ a)
    (h : ∀ x ∈ l, 0 ≤ x) : 0 ≤ l.foldl (· + ·) a := by
  induction l generalizing a with
  | nil => exact ha
  | cons b t ih =>
      exact ih (a + b) (add_nonneg ha (h b (List.mem_cons_self b t)))
        fun x hx => h x (List.mem_cons_of_mem b hx)

theorem groupAvg_nonneg (spectrum : List ℚ) (lo hi : Nat)
    (hs : ∀ x ∈ spectrum, 0 ≤ x) : 0 ≤ groupAvg spectrum lo hi := by
  unfold groupAvg
  split
  · exact le_refl 0
  · apply div_nonneg
    · refine foldl_add_nonneg _ 0 (le_refl 0) fun x hx => ?_
      exact hs x (List.mem_of_mem_drop (List.mem_of_mem_take hx))
    · exact Nat.cast_nonneg _

theorem binGo_nonneg (spectrum : List ℚ) (k : Nat)
    (hs : ∀ x ∈ spectrum, 0 ≤ x) :
    ∀ (rem prev i : Nat), ∀ v ∈ binGo spectrum k prev i rem, 0 ≤ v := by
  intro rem
  induction rem with
  | zero => intro prev i v hv; cases hv
  | succ r ih =>
      intro prev i v hv
      rcases List.mem_cons.mp hv with rfl | hv'
      · exact groupAvg_nonneg spectrum _ _ hs
      · exact ih _ (i + 1) v hv'

/-- **C4** (modelled from the spec; the SpectrumEngine is absent from the
source tree): `bin_spectrum spectrum k` returns exactly `k` values for
every input length — including length 0 and lengths ≤ `k` — and all of
them are non-negative whenever the input magnitudes are non-negative. -/
theorem bin_spectrum_shape_C4 (spectrum : List ℚ) (k : Nat)
    (hs : ∀ x ∈ spectrum, 0 ≤ x) :
    (bin_spectrum spectrum k).length = k ∧
    ∀ v ∈ bin_spectrum spectrum k, 0 ≤ v := by
  unfold bin_spectrum
  by_cases hk : k = 0
  · subst hk
    exact ⟨rfl, fun v hv => by cases hv⟩
  · rw [if_neg hk]
    exact ⟨binGo_length spectrum k k 0 0, binGo_nonneg spectrum k hs k 0 0⟩

theorem bin_spectrum_shape_C4_witness :
    ((bin_spectrum [1] 3).length = 3 ∧ ∀ v ∈ bin_spectrum [1] 3, 0 ≤ v) ∧
    (bin_spectrum ([] : List ℚ) 2).length = 2 :=
  ⟨bin_spectrum_shape_C4 [1] 3 (by decide),
   (bin_spectrum_shape_C4 [] 2 (by decide)).1⟩

section Rasterization

/-- Row-major dot indices are injective within a row-width `w`. -/
theorem idx_inj {w x x' y y' : Nat} (hx : x < w) (hx' : x' < w)
    (h : y * w + x = y' * w + x') : x = x' ∧ y = y' := by
  have h1 : (y * w + x) % w = x := by
    rw [Nat.mul_comm y w, Nat.mul_add_mod, Nat.mod_eq_of_lt hx]
  have h2 : (y' * w + x') % w = x' := by
    rw [Nat.mul_comm y' w, Nat.mul_add_mod, Nat.mod_eq_of_lt hx']
  have h3 : (y * w + x) / w = y := by
    rw [Nat.mul_comm y w, Nat.mul_add_div (by omega), Nat.div_eq_of_lt hx]
    omega
  have h4 : (y' * w + x') / w = y' := by
    rw [Nat.mul_comm y' w, Nat.mul_add_div (by omega), Nat.div_eq_of_lt hx']
    omega
  constructor
  · rw [← h1, ← h2, h]
  · rw [← h3, ← h4, h]

theorem idx_lt {w h x y : Nat} (hx : x < w) (hy : y < h) :
    y * w + x < w * h := by
  have h1 : y * w + x < (y + 1) * w := by
    rw [Nat.succ_mul]
    omega
  have h2 : (y + 1) * w ≤ h * w := Nat.mul_le_mul_right w hy
  calc y * w + x < (y + 1) * w := h1
    _ ≤ h * w := h2
    _ = w * h := Nat.mul_comm h w

theorem getD_set (l : List Bool) (i j : Nat) (a : Bool) :
    (l.set i a).getD j false
      = if i = j ∧ j < l.length then a else l.getD j false := by
  rw [List.getD_eq_getElem?_getD, List.getD_eq_getElem?_getD,
    List.getElem?_set]
  by_cases h : i = j
  · subst h
    by_cases hl : i < l.length
    · rw [if_pos rfl, if_pos hl, if_pos ⟨rfl, hl⟩]
      rfl
    · rw [if_pos rfl, if_neg hl, if_neg (by tauto)]
      rw [List.getElem?_eq_none (by omega)]
  · rw [if_neg h, if_neg (by tauto)]

theorem setColRange_length (w x : Nat) :
    ∀ (rem y : Nat) (dots : List Bool),
      (setColRange w x dots y rem).length = dots.length := by
  intro rem
  induction rem with
  | zero => intro y dots; rfl
  | succ r ih =>
      intro y dots
      rw [show setColRange w x dots y (r + 1)
          = setColRange w x (dots.set (y * w + x) true) (y + 1) r from rfl,
        ih, List.length_set]

/-- Characterization of the vertical-fill loop: a dot is set afterwards
iff it was set before or lies in column `x` within the filled range. -/
theorem getD_setColRange (w h x : Nat) (hx : x < w) :
    ∀ (rem y0 : Nat) (dots : List Bool), dots.length = w * h →
      y0 + rem ≤ h → ∀ (x' y' : Nat), x' < w →
      (setColRange w x dots y0 rem).getD (y' * w + x') false
        = if x' = x ∧ y0 ≤ y' ∧ y' < y0 + rem then true
          else dots.getD (y' * w + x') false := by
  intro rem
  induction rem with
  | zero =>
      intro y0 dots hlen hb x' y' hx'
      rw [if_neg (by omega)]
      rfl
  | succ r ih =>
      intro y0 dots hlen hb x' y' hx'
      rw [show setColRange w x dots y0 (r + 1)
          = setColRange w x (dots.set (y0 * w + x) true) (y0 + 1) r from rfl]
      rw [ih (y0 + 1) _ (by rw [List.length_set, hlen]) (by omega) x' y' hx']
      by_cases hcase : x' = x ∧ y0 + 1 ≤ y' ∧ y' < y0 + 1 + r
      · rw [if_pos hcase, if_pos ⟨hcase.1, by omega, by omega⟩]
      · rw [if_neg hcase, getD_set]
        by_cases heq : y0 * w + x = y' * w + x' ∧ y' * w + x' < dots.length
        · obtain ⟨hidx, hlt⟩ := heq
          obtain ⟨hxx, hyy⟩ := idx_inj hx hx' hidx
          rw [if_pos ⟨hidx, hlt⟩, if_pos ⟨hxx.symm, by omega, by omega⟩]
        · have hnc : ¬(x' = x ∧ y0 ≤ y' ∧ y' < y0 + (r + 1)) := by
            rintro ⟨hxe, hy1, hy2⟩
            have hyy : y' = y0 := by
              by_contra hne
              exact hcase ⟨hxe, by omega, by omega⟩
            apply heq
            constructor
            · rw [hyy, hxe]
            · rw [hlen]
              exact idx_lt hx' (by omega)
          rw [if_neg heq, if_neg hnc]

theorem fill_preserve (c : BrailleCanvas) (x a b : Nat) :
    (c.fill_vertical_line x a b).width = c.width ∧
    (c.fill_vertical_line x a b).height = c.height ∧
    (c.fill_vertical_line x a b).dots.length = c.dots.length := by
  unfold BrailleCanvas.fill_vertical_line
  split
  · exact ⟨rfl, rfl, rfl⟩
  · exact ⟨rfl, rfl, setColRange_length c.width x _ _ c.dots⟩

/-- Characterization of `fill_vertical_line` through `get_dot`, for fill
ranges that stay below the canvas height. -/
theorem get_dot_fill (c : BrailleCanvas)
    (hc : c.dots.length = c.width * c.height)
    (x ys ye : Nat) (hy : max ys ye < c.height) (x' y' : Nat) :
    (c.fill_vertical_line x ys ye).get_dot x' y'
      = if x' = x ∧ x < c.width ∧ min ys ye ≤ y' ∧ y' ≤ max ys ye then true
        else c.get_dot x' y' := by
  unfold BrailleCanvas.fill_vertical_line
  by_cases hxw : c.width ≤ x
  · rw [if_pos hxw, if_neg (by omega)]
  · rw [if_neg hxw]
    have he : min (max ys ye) (c.height - 1) = max ys ye := by omega
    unfold BrailleCanvas.get_dot
    simp only
    by_cases hbnd : x' < c.width ∧ y' < c.height
    · rw [if_pos hbnd, if_pos hbnd]
      rw [getD_setColRange c.width c.height x (by omega) _ _ c.dots hc
        (by omega) x' y' hbnd.1]
      rw [he]
      by_cases hcond : x' = x ∧ min ys ye ≤ y' ∧ y' < min ys ye
          + (max ys ye + 1 - min ys ye)
      · rw [if_pos hcond, if_pos ⟨hcond.1, by omega, by omega, by omega⟩]
      · rw [if_neg hcond,
          if_neg (by rintro ⟨ha, hb, hcc, hd⟩; exact hcond ⟨ha, hcc, by omega⟩)]
    · rw [if_neg hbnd, if_neg hbnd,
        if_neg (by rintro ⟨ha, hb, hcc, hd⟩; exact hbnd ⟨by omega, by omega⟩)]

end Rasterization

section RenderBar

theorem extent_le_center (a : ℚ) (c : Nat) (h0 : 0 ≤ a) (h1 : a ≤ 1) :
    (round (a * (c : ℚ))).toNat ≤ c := by
  have h2 : a * (c : ℚ) ≤ (c : ℚ) := by
    calc a * (c : ℚ) ≤ 1 * (c : ℚ) :=
          mul_le_mul_of_nonneg_right h1 (by positivity)
      _ = (c : ℚ) := one_mul _
  have h3 : round (a * (c : ℚ)) ≤ round ((c : ℚ)) := by
    rw [round_eq, round_eq]
    exact Int.floor_mono (by linarith)
  rw [round_natCast] at h3
  omega

theorem clamp_nonneg (amp : ℚ) : 0 ≤ min (max amp 0) 1 :=
  le_min (le_max_right amp 0) zero_le_one

theorem clamp_le_one (amp : ℚ) : min (max amp 0) 1 ≤ 1 :=
  min_le_right _ _

theorem renderBar_preserve (c : BrailleCanvas) (i : Nat) (amp : ℚ) :
    (renderBar c i amp).width = c.width ∧
    (renderBar c i amp).height = c.height ∧
    (renderBar c i amp).dots.length = c.dots.length := by
  simp only [renderBar]
  split
  · exact ⟨rfl, rfl, rfl⟩
  · refine ⟨?_, ?_, ?_⟩
    · rw [(fill_preserve _ _ _ _).1, (fill_preserve _ _ _ _).1]
    · rw [(fill_preserve _ _ _ _).2.1, (fill_preserve _ _ _ _).2.1]
    · rw [(fill_preserve _ _ _ _).2.2, (fill_preserve _ _ _ _).2.2]

/-- One rendered bar sets exactly the dots described by `barHit`, leaving
all other dots unchanged. -/
theorem get_dot_renderBar (c : BrailleCanvas)
    (hc : c.dots.length = c.width * c.height) (i : Nat) (amp : ℚ)
    (x' y' : Nat) :
    (renderBar c i amp).get_dot x' y'
      = (barHit c.width c.height i amp x' y' || c.get_dot x' y') := by
  simp only [renderBar, barHit]
  set a := min (max amp 0) 1 with ha
  set center := c.height / 2 with hcen
  set extent := (round (a * (center : ℚ))).toNat with hext
  by_cases hz : extent = 0
  · rw [if_pos hz]
    have : decide ((x' = i * 2 ∨ x' = i * 2 + 1) ∧ x' < c.width ∧
        extent ≠ 0 ∧ center - extent ≤ y' ∧
        y' ≤ min (center + extent - 1) (c.height - 1) ∧ y' < c.height)
        = false := decide_eq_false (by rintro ⟨_, _, hne, _⟩; exact hne hz)
    rw [this, Bool.false_or]
  · rw [if_neg hz]
    have hec : extent ≤ center := by
      rw [hext]
      exact extent_le_center a center (clamp_nonneg amp) (clamp_le_one amp)
    have hcen1 : 1 ≤ center := by omega
    have hh2 : 2 ≤ c.height := by omega
    have hyb : max (center - extent) (min (center + extent - 1) (c.height - 1))
        < c.height := by omega
    have p1 := fill_preserve c (i * 2) (center - extent)
      (min (center + extent - 1) (c.height - 1))
    rw [get_dot_fill (c.fill_vertical_line (i * 2) (center - extent)
        (min (center + extent - 1) (c.height - 1)))
      (by rw [p1.2.2, p1.1, p1.2.1]; exact hc) (i * 2 + 1) (center - extent)
      (min (center + extent - 1) (c.height - 1))
      (by rw [p1.2.1]; exact hyb) x' y']
    rw [get_dot_fill c hc (i * 2) _ _ hyb x' y']
    rw [p1.1]
    have hmin : min (center - extent)
        (min (center + extent - 1) (c.height - 1)) = center - extent := by
      omega
    have hmax : max (center - extent)
        (min (center + extent - 1) (c.height - 1))
        = min (center + extent - 1) (c.height - 1) := by
      omega
    rw [hmin, hmax]
    by_cases h1 : x' = i * 2 ∧ i * 2 < c.width ∧ center - extent ≤ y' ∧
        y' ≤ min (center + extent - 1) (c.height - 1)
    · have hBH : decide ((x' = i * 2 ∨ x' = i * 2 + 1) ∧ x' < c.width ∧
          extent ≠ 0 ∧ center - extent ≤ y' ∧
          y' ≤ min (center + extent - 1) (c.height - 1) ∧ y' < c.height)
          = true :=
        decide_eq_true ⟨Or.inl h1.1, by omega, hz, h1.2.2.1, h1.2.2.2,
          by omega⟩
      rw [hBH, Bool.true_or, if_pos h1]
      by_cases h2 : x' = i * 2 + 1 ∧ i * 2 + 1 < c.width ∧
          center - extent ≤ y' ∧ y' ≤ min (center + extent - 1) (c.height - 1)
      · rw [if_pos h2]
      · rw [if_neg h2]
    · by_cases h2 : x' = i * 2 + 1 ∧ i * 2 + 1 < c.width ∧
          center - extent ≤ y' ∧ y' ≤ min (center + extent - 1) (c.height - 1)
      · have hBH : decide ((x' = i * 2 ∨ x' = i * 2 + 1) ∧ x' < c.width ∧
            extent ≠ 0 ∧ center - extent ≤ y' ∧
            y' ≤ min (center + extent - 1) (c.height - 1) ∧ y' < c.height)
            = true :=
          decide_eq_true ⟨Or.inr h2.1, by omega, hz, h2.2.2.1, h2.2.2.2,
            by omega⟩
        rw [hBH, Bool.true_or, if_pos h2]
      · have hBH : decide ((x' = i * 2 ∨ x' = i * 2 + 1) ∧ x' < c.width ∧
            extent ≠ 0 ∧ center - extent ≤ y' ∧
            y' ≤ min (center + extent - 1) (c.height - 1) ∧ y' < c.height)
            = false := by
          apply decide_eq_false
          rintro ⟨hor, hxw, -, hy1, hy2, -⟩
          rcases hor with hl | hr
          · exact h1 ⟨hl, by omega, hy1, hy2⟩
          · exact h2 ⟨hr, by omega, hy1, hy2⟩
        rw [hBH, Bool.false_or, if_neg h2, if_neg h1]

end RenderBar

theorem get_dot_new (cols rows x y : Nat) :
    (BrailleCanvas.new cols rows).get_dot x y = false := by
  unfold BrailleCanvas.get_dot BrailleCanvas.new
  split
  · rw [List.getD_eq_getElem?_getD, List.getElem?_replicate]
    split <;> rfl
  · rfl

/-- Rendering a list of indexed bars sets exactly the union of the dots
of the individual bars. -/
theorem get_dot_render_fold (ps : List (Nat × ℚ)) :
    ∀ (c : BrailleCanvas), c.dots.length = c.width * c.height →
    ∀ (x' y' : Nat),
    ((ps.foldl (fun cv p => renderBar cv p.1 p.2) c).get_dot x' y')
      = ((ps.any fun p => barHit c.width c.height p.1 p.2 x' y')
          || c.get_dot x' y') := by
  induction ps with
  | nil =>
      intro c hc x' y'
      simp
  | cons p ps ih =>
      intro c hc x' y'
      have hp := renderBar_preserve c p.1 p.2
      rw [List.foldl_cons,
        ih (renderBar c p.1 p.2) (by rw [hp.2.2, hp.1, hp.2.1]; exact hc)
          x' y',
        hp.1, hp.2.1,
        get_dot_renderBar c hc p.1 p.2 x' y',
        List.any_cons]
      cases hany : ps.any fun q => barHit c.width c.height q.1 q.2 x' y' <;>
        cases hhit : barHit c.width c.height p.1 p.2 x' y' <;>
        cases hg : c.get_dot x' y' <;> rfl

/-- **C6**: waveform rasterization is vertically symmetric.  For every
bar of amplitude `a ∈ [0,1]` rendered onto a fresh dot canvas of height
`H = rows·4` with `center = H/2`, the filled dots in that bar's two
sub-pixel columns `2i` and `2i+1` form one contiguous band of height
`2·round(a·center)`: exactly the rows `center − extent ≤ y <
center + extent` with `extent = round(a·center)`; an amplitude with
extent 0 fills no dots (the band is empty). -/
theorem waveform_symmetric_band_C6 (cols rows : Nat) (bars : List ℚ)
    (i : Nat) (a : ℚ) (hia : bars[i]? = some a) (hcols : i < cols)
    (h0 : 0 ≤ a) (h1 : a ≤ 1) (y : Nat) :
    ((render_waveform_to_canvas bars (BrailleCanvas.new cols rows)).get_dot
        (i * 2) y
      = decide (rows * 4 / 2 - (round (a * ((rows * 4 / 2 : Nat) : ℚ))).toNat ≤ y ∧
          y < rows * 4 / 2 + (round (a * ((rows * 4 / 2 : Nat) : ℚ))).toNat)) ∧
    ((render_waveform_to_canvas bars (BrailleCanvas.new cols rows)).get_dot
        (i * 2 + 1) y
      = decide (rows * 4 / 2 - (round (a * ((rows * 4 / 2 : Nat) : ℚ))).toNat ≤ y ∧
          y < rows * 4 / 2 + (round (a * ((rows * 4 / 2 : Nat) : ℚ))).toNat)) := by
  have hc : (BrailleCanvas.new cols rows).dots.length
      = (BrailleCanvas.new cols rows).width * (BrailleCanvas.new cols rows).height := by
    simp [BrailleCanvas.new]
  have hclamp : min (max a 0) 1 = a := by
    rw [max_eq_left h0, min_eq_left h1]
  have hE : (round (a * ((rows * 4 / 2 : Nat) : ℚ))).toNat ≤ rows * 4 / 2 :=
    extent_le_center a (rows * 4 / 2) h0 h1
  have key : ∀ x', (x' = i * 2 ∨ x' = i * 2 + 1) →
      ((render_waveform_to_canvas bars (BrailleCanvas.new cols rows)).get_dot
          x' y
        = decide (rows * 4 / 2 - (round (a * ((rows * 4 / 2 : Nat) : ℚ))).toNat ≤ y ∧
            y < rows * 4 / 2 + (round (a * ((rows * 4 / 2 : Nat) : ℚ))).toNat)) := by
    intro x' hx'
    unfold render_waveform_to_canvas
    rw [get_dot_render_fold bars.enum (BrailleCanvas.new cols rows) hc x' y,
      get_dot_new, Bool.or_false]
    rw [show (BrailleCanvas.new cols rows).width = cols * 2 from rfl,
      show (BrailleCanvas.new cols rows).height = rows * 4 from rfl]
    by_cases hband : rows * 4 / 2 - (round (a * ((rows * 4 / 2 : Nat) : ℚ))).toNat ≤ y ∧
        y < rows * 4 / 2 + (round (a * ((rows * 4 / 2 : Nat) : ℚ))).toNat
    · rw [decide_eq_true hband, List.any_eq_true]
      refine ⟨(i, a), List.mk_mem_enum_iff_getElem?.mpr hia, ?_⟩
      simp only [barHit, hclamp]
      apply decide_eq_true
      have hEne : (round (a * ((rows * 4 / 2 : Nat) : ℚ))).toNat ≠ 0 := by
        omega
      exact ⟨hx', by omega, hEne, by omega, by omega, by omega⟩
    · rw [decide_eq_false hband]
      rw [List.any_eq_false]
      rintro ⟨j, b⟩ hmem
      simp only [barHit]
      intro hhit
      have hprop := of_decide_eq_true hhit
      obtain ⟨hor, hxw, hEne, hy1, hy2, hy3⟩ := hprop
      have hij : j = i := by
        rcases hx' with h' | h' <;> rcases hor with h'' | h'' <;> omega
      have hba : b = a := by
        have hj := List.mk_mem_enum_iff_getElem?.mp hmem
        rw [hij, hia] at hj
        injection hj with hj'
        exact hj'.symm
      rw [hba, hclamp] at hEne hy1 hy2
      exact hband ⟨by omega, by omega⟩
  exact ⟨key (i * 2) (Or.inl rfl), key (i * 2 + 1) (Or.inr rfl)⟩

theorem waveform_symmetric_band_C6_witness :
    (([1] : List ℚ)[0]? = some 1) ∧
    ((render_waveform_to_canvas [1] (BrailleCanvas.new 1 1)).get_dot (0 * 2) 0
      = decide (1 * 4 / 2 - (round ((1 : ℚ) * ((1 * 4 / 2 : Nat) : ℚ))).toNat ≤ 0 ∧
          0 < 1 * 4 / 2 + (round ((1 : ℚ) * ((1 * 4 / 2 : Nat) : ℚ))).toNat)) :=
  ⟨by decide,
   (waveform_symmetric_band_C6 1 1 [1] 0 1 (by decide) (by decide)
      (by decide) (by decide) 0).1⟩
